import Mathlib

/-!
# Verification of the OpenPBS ACL engine (`src/lib/Libattr/attr_fn_acl.c`)

A shallow embedding of the ACL match/order functions, the ACL mutation
procedure `set_allacl` and the authorization decision `acl_check`.

C strings are modelled as `List Char` holding the bytes up to (and not
including) the terminating NUL; entry lists of an `array_strings` are
modelled as `List (List Char)` together with the `as_bufsize` /
`as_npointers` capacities that drive (re)allocation.  Allocation calls
(`malloc` / `realloc`) may fail in C; each allocation site of
`set_allacl` is therefore guarded by a boolean taken from an
`AllocPlan` (`true` = the allocation succeeds).
-/

set_option maxHeartbeats 1000000

abbrev Str := List Char

/-- Skip one leading `'+'` or `'-'`, as done by the order functions
(`if ((*s1 == '+') || (*s1 == '-')) s1++;`). -/
def stripSign : Str → Str
  | '+' :: t => t
  | '-' :: t => t
  | s => s

/-! ## `hacl_match` — host ACL match (attr_fn_acl.c:653-677)

The C function scans both strings backwards (`pc`/`pm` start at the last
character).  We model the loop on the *reversed* strings: the first
element of each list argument of `haclLoop` is the character currently
under `pc` resp. `pm`, and `pc > can` (resp. `pm > master`) holds
exactly when the list still has at least two elements.  An empty list
corresponds to the pointer having started at `s - 1` (empty C string),
which never satisfies `pm == master`. -/

def haclLoop : List Char → List Char → Bool
  | c0 :: c1 :: cs, m0 :: m1 :: ms =>
    -- while ((pc > can) && (pm > master)) { mismatch → 1; pc--; pm--; }
    if c0.toLower = m0.toLower then haclLoop (c1 :: cs) (m1 :: ms) else false
  | c, [m0] =>
    -- pm == master: wildcard first, else need pc == can with equal chars
    if m0 = '*' then true
    else
      match c with
      | [c0] => c0.toLower = m0.toLower
      | _ => false
  | _, _ => false

/-- `hacl_match(can, master)`; `true` corresponds to the C return value 0
(match). -/
def hacl_match (can master : Str) : Bool :=
  haclLoop can.reverse master.reverse

/-! ## `host_order` — host ACL comparator (attr_fn_acl.c:815-851)

Again modelled on the reversed (sign-stripped) strings.  Note that the C
code computes `d = *p2 - *p1` (second argument minus first). -/

def hoLoop : List Char → List Char → Int
  | a0 :: a1 :: as_, b0 :: b1 :: bs =>
    -- (p1 > s1) && (p2 > s2)
    if (b0.toNat : Int) - (a0.toNat : Int) ≠ 0 then (b0.toNat : Int) - (a0.toNat : Int)
    else hoLoop (a1 :: as_) (b1 :: bs)
  | [a0], [b0] =>
    -- (p1 == s1) && (p2 == s2)
    if a0 = '*' then 1
    else if b0 = '*' then -1
    else (b0.toNat : Int) - (a0.toNat : Int)
  | [_], _ => 1        -- p1 == s1 (s2 exhausted later or empty)
  | _ :: _ :: _, _ => -1  -- p2 == s2 or s2 empty, while p1 > s1
  | [], _ => -1        -- s1 empty: p1 = s1 - 1, final else branch

def host_order (s1 s2 : Str) : Int :=
  hoLoop (stripSign s1).reverse (stripSign s2).reverse

/-! ## `user_order` — user ACL comparator (attr_fn_acl.c:583-606)

The C loop compares characters until `'@'` or NUL **and then calls
`host_order(s1 + 1, s2 + 1)`**.  When the loop stopped at the NUL
terminator, `s1 + 1` points one past the end of the string, so
`host_order` is applied to whatever bytes follow in memory.  We model
this faithfully: each argument is a pair of the string contents and the
C string found immediately after its NUL terminator (`b1`, `b2`). -/

def uoLoop : Str → Str → Str → Str → Int
  | c1 :: t1, b1, c2 :: t2, b2 =>
    if (c1.toNat : Int) - (c2.toNat : Int) ≠ 0 then (c1.toNat : Int) - (c2.toNat : Int)
    else if c1 = '@' then host_order t1 t2
    else uoLoop t1 b1 t2 b2
  | [], b1, [], b2 => host_order b1 b2  -- both at NUL: reads past the end!
  | [], _, c2 :: _, _ => -(c2.toNat : Int)
  | c1 :: _, _, [], _ => (c1.toNat : Int)

/-- `user_order(s1, s2)` with explicit out-of-bounds memory `b1`, `b2`
(the C strings that happen to follow `s1` resp. `s2` in memory). -/
def user_order_mem (s1 b1 s2 b2 : Str) : Int :=
  uoLoop (stripSign s1) b1 (stripSign s2) b2

/-- `user_order` under the assumption that the byte after each
terminating NUL is again a NUL (i.e. the out-of-bounds remainders are
empty strings).  The C code actually reads past the terminator in the
tie case — see the C7 theorems. -/
def user_order (s1 s2 : Str) : Int :=
  user_order_mem s1 [] s2 []

/-! ## `group_order` — group ACL comparator (attr_fn_acl.c:621-633) -/

def strcmpInt : Str → Str → Int
  | [], [] => 0
  | [], b :: _ => -(b.toNat : Int)
  | a :: _, [] => (a.toNat : Int)
  | a :: as_, b :: bs =>
    if (a.toNat : Int) - (b.toNat : Int) ≠ 0 then (a.toNat : Int) - (b.toNat : Int)
    else strcmpInt as_ bs

def group_order (s1 s2 : Str) : Int :=
  strcmpInt (stripSign s1) (stripSign s2)

/-! ## `user_match` — user ACL match (attr_fn_acl.c:541-567) -/

def user_match : Str → Str → Bool
  | [], [] => false
      -- C: the do-while advances past both NUL terminators and reads out
      -- of bounds (undefined); modelled as a non-match.  The claims that
      -- involve `user_match` exclude this corner by hypothesis.
  | [], _ :: _ => false        -- '\0' != first char of master
  | _ :: _, [] => false        -- first char of can != '\0'
  | c :: ct, m :: mt =>
    if m ≠ c then false
    else
      match mt with
      | [] =>  -- *master == '\0' after the loop
        decide (ct = [] ∨ ct.head? = some '@')
      | m2 :: mt' =>
        if m2 = '@' then
          match ct with
          | '@' :: ct' => hacl_match ct' mt'
          | _ => false   -- includes ct = [] (NUL != '@')
        else user_match ct (m2 :: mt')

/-! ## `sacl_match` — subnet ACL match (attr_fn_acl.c:745-798)

External collaborators modelled at their interface:
* `inet_pton(AF_INET, …)` / `ntohl` — strict dotted-quad parsing as in
  glibc (exactly four decimal components, each 0–255, no leading zeros,
  nothing before or after), returning the 32-bit host-order value;
* `strchr` — `splitFirst`;
* `atoi` — leading C whitespace, an optional sign, then the longest
  leading digit run (overflow is undefined in C; modelled unbounded);
* `PBS_MAXIP_LEN` — a constant from `pbs_ifl.h`, which is not part of
  the visible core.  Modelled from the spec: the constant only bounds
  the subnet half of the pattern, and (lemma `parseIPv4_length` below)
  any value ≥ 15 gives behaviour identical to no bound at all, since a
  parseable dotted quad has at most 15 characters. -/

def digVal (c : Char) : Option Nat :=
  if c.isDigit then some (c.toNat - 48) else none

/-- The digit-accumulation loop of glibc `inet_pton` for one component:
`acc` is the value read so far (a digit has already been consumed).
Rejects a second digit after a leading `0` and any value above 255. -/
def ptonOctetCont : List Char → Nat → Option (Nat × List Char)
  | [], acc => some (acc, [])
  | c :: rest, acc =>
    match digVal c with
    | some d =>
      if acc = 0 then none
      else if acc * 10 + d > 255 then none
      else ptonOctetCont rest (acc * 10 + d)
    | none => some (acc, c :: rest)

/-- Parse one decimal component (at least one digit, value ≤ 255). -/
def ptonOctet : List Char → Option (Nat × List Char)
  | [] => none
  | c :: rest =>
    match digVal c with
    | some d => ptonOctetCont rest d
    | none => none

/-- Consume the `'.'` separating two components. -/
def expectDot : List Char → Option (List Char)
  | c :: r => if c = '.' then some r else none
  | [] => none

/-- `inet_pton(AF_INET, l)` followed by `ntohl`: the 32-bit value
`a*2^24 + b*2^16 + c*2^8 + d` for a strict dotted quad `a.b.c.d`
(four components separated by `'.'`, nothing left over). -/
def parseIPv4 (l : List Char) : Option Nat :=
  (ptonOctet l).bind fun p1 =>
    (expectDot p1.2).bind fun s1 =>
      (ptonOctet s1).bind fun p2 =>
        (expectDot p2.2).bind fun s2 =>
          (ptonOctet s2).bind fun p3 =>
            (expectDot p3.2).bind fun s3 =>
              (ptonOctet s3).bind fun p4 =>
                if p4.2 = [] then
                  some (p1.1 * 16777216 + p2.1 * 65536 + p3.1 * 256 + p4.1)
                else none

/-- `strchr(l, sep)`: split at the first occurrence of `sep`, returning
the parts before and after it. -/
def splitFirst (sep : Char) : List Char → Option (List Char × List Char)
  | [] => none
  | c :: rest =>
    if c = sep then some ([], rest)
    else
      match splitFirst sep rest with
      | none => none
      | some (l, r) => some (c :: l, r)

/-- `isspace` in the C locale. -/
def isSpaceC (c : Char) : Bool :=
  c = ' ' ∨ c = '\t' ∨ c = '\n' ∨ c = '\x0b' ∨ c = '\x0c' ∨ c = '\r'

def digRunVal (l : List Char) : Int :=
  ((l.takeWhile Char.isDigit).foldl (fun a c => a * 10 + (c.toNat - 48)) 0 : Nat)

/-- C `atoi`: skip C whitespace, optional sign, longest digit run
(0 if there is none).  Overflow, which is undefined behaviour in C, is
modelled as unbounded arithmetic. -/
def atoiInt (l : List Char) : Int :=
  match l.dropWhile isSpaceC with
  | '-' :: r => -(digRunVal r)
  | '+' :: r => digRunVal r
  | r => digRunVal r

def PBS_MAXIP_LEN : Nat := 45

/-- The value of the mask half of a subnet pattern, as `sacl_match`
computes it (attr_fn_acl.c:780-792): a part containing `'.'` is parsed
as a dotted mask (`inet_pton`), otherwise `atoi` is applied and a value
outside 0-32 is rejected; a prefix length `n` gives the mask
`2^32 - 2^(32-n)` (`~0 << (32 - n)` as a 32-bit value, 0 for `n = 0`).
The empty-mask guard mirrors the `*(delimiter + 1) == '\0'` test that
`sacl_match` performs before computing the mask. -/
def maskVal (mp : List Char) : Option Nat :=
  if mp = [] then none
  else if mp.contains '.' then parseIPv4 mp
  else
    let sm := atoiInt mp
    if sm < 0 ∨ sm > 32 then none
    else some (if sm = 0 then 0 else 4294967296 - 2 ^ (32 - sm.toNat))

/-- `sacl_match(can, master)`; `true` corresponds to the C return value
0 (match). -/
def sacl_match (can master : Str) : Bool :=
  match parseIPv4 can with
  | none => false                      -- inet_pton(can) failed
  | some ip =>
    match splitFirst '/' master with
    | none => false                    -- no '/' in master
    | some (subPart, maskPart) =>
      if maskPart = [] then false      -- *(delimiter+1) == '\0'
      else if subPart.length > PBS_MAXIP_LEN then false
      else
        match parseIPv4 subPart with
        | none => false                -- inet_pton(subnet) failed
        | some subnet =>
          match maskVal maskPart with  -- maskPart ≠ [] here, as in the C
          | none => false
          | some mask =>
            if mask = 0 then false
            else decide (ip.land mask = subnet.land mask)

/-! ## `set_allacl` — ACL mutation procedure (attr_fn_acl.c:337-520)

An `array_strings` is modelled by its entry list plus the two capacity
fields (`as_bufsize`, `as_npointers`).  The packed character buffer
itself is an implementation artifact: the space it occupies
(`as_next - as_buf`) always equals `Σ (length eᵢ + 1)` over the stored
entries, which `sizeOfEntries` computes, so the C size tests
`nsize > as_bufsize` and `nsize > as_bufsize - used` are mirrored
exactly (the latter written additively, which is what the unsigned
subtraction means for a packed buffer where `used ≤ as_bufsize`). -/

structure ArrSt where
  entries : List Str
  bufsize : Nat
  npointers : Nat
deriving DecidableEq, Repr

def sizeOfEntries (l : List Str) : Nat :=
  (l.map (fun s => s.length + 1)).sum

inductive BatchOp where
  | SET | INCR | DECR | OTHER
deriving DecidableEq, Repr

/-- The PBSE error codes `set_allacl` can return. -/
inductive SetErr where
  | internal   -- PBSE_INTERNAL
  | system     -- PBSE_SYSTEM (malloc/realloc failure)
  | duplist    -- PBSE_DUPLIST
deriving DecidableEq, Repr

/-- One boolean per allocation site of `set_allacl`
(`true` = that `malloc`/`realloc` call succeeds if reached). -/
structure AllocPlan where
  mkPas : Bool     -- attr_fn_acl.c:366 (create the array_strings struct)
  setBuf : Bool    -- attr_fn_acl.c:404 (SET: fresh buffer)
  incrBuf : Bool   -- attr_fn_acl.c:434/436 (INCR: grow the buffer)
  incrPtr : Bool   -- attr_fn_acl.c:455 (INCR: grow the pointer table)
deriving DecidableEq, Repr

def allocOK : AllocPlan := ⟨true, true, true, true⟩

/-- `chk_dup_acl(old, new)` (attr_fn_acl.c:289-316): duplicates within
`new` or between `new` and `old`. -/
def chk_dup_acl (old new : List Str) : Bool :=
  new.enum.any fun is =>
    (new.enum.any fun js => is.1 ≠ js.1 && is.2 == js.2) ||
      (old.any fun t => is.2 == t)

/-- The inner insertion scan of the INCR branch
(attr_fn_acl.c:465-491): walk the stored entries until
`order_func(existing, new) > 0` and insert there, else append. -/
def insertAcl (ord : Str → Str → Int) : List Str → Str → List Str
  | [], n => [n]
  | e :: rest, n =>
    if 0 < ord e n then n :: e :: rest
    else e :: insertAcl ord rest n

/-- The inner scan of the DECR branch (attr_fn_acl.c:495-511): remove
the first stored entry equal (exact `strcmp`) to the operand entry. -/
def removeFirst : List Str → Str → List Str
  | [], _ => []
  | e :: rest, x => if e = x then rest else e :: removeFirst rest x

/-- The `INCR` branch (attr_fn_acl.c:418-492), also reached by falling
through from `SET`. -/
def incrBody (plan : AllocPlan) (pas newpas : ArrSt) (ord : Str → Str → Int) :
    Option SetErr × ArrSt :=
  if chk_dup_acl pas.entries newpas.entries then (some SetErr.duplist, pas)
  else
    let nsize := sizeOfEntries newpas.entries
    let used := sizeOfEntries pas.entries
    if nsize + used > pas.bufsize ∧ ¬plan.incrBuf then (some SetErr.system, pas)
    else
      let pas1 :=
        if nsize + used > pas.bufsize then
          { pas with bufsize := pas.bufsize + 2 * nsize }
        else pas
      let j := pas1.entries.length + newpas.entries.length
      if j > pas1.npointers ∧ ¬plan.incrPtr then (some SetErr.system, pas1)
      else
        let pas2 :=
          if j > pas1.npointers then { pas1 with npointers := 3 * j / 2 } else pas1
        (none, { pas2 with entries := newpas.entries.foldl (insertAcl ord) pas2.entries })

/-- The body of `set_allacl` once an `array_strings` struct exists. -/
def setBody (plan : AllocPlan) (pas newpas : ArrSt) (op : BatchOp)
    (ord : Str → Str → Int) : Option SetErr × ArrSt :=
  match op with
  | BatchOp.SET =>
    -- clear all pointers, then (maybe) grow the buffer, then fall
    -- through into INCR (attr_fn_acl.c:383-416)
    let cleared := { pas with entries := ([] : List Str) }
    if newpas.entries = [] then (none, cleared)
    else
      let nsize := sizeOfEntries newpas.entries
      if nsize > cleared.bufsize then
        if plan.setBuf then
          incrBody plan { cleared with bufsize := nsize + nsize / 2 } newpas ord
        else (some SetErr.system, { cleared with bufsize := 0 })
      else incrBody plan cleared newpas ord
  | BatchOp.INCR => incrBody plan pas newpas ord
  | BatchOp.DECR =>
    (none, { pas with entries := newpas.entries.foldl removeFirst pas.entries })
  | BatchOp.OTHER => (some SetErr.internal, pas)

/-- `set_allacl(attr, new, op, order_func)` (attr_fn_acl.c:337-520).
The first component is the returned error (`none` = 0/success), the
second the attribute value afterwards (`none` = no `array_strings`
struct attached). -/
def set_allacl (plan : AllocPlan) (attr : Option ArrSt) (newOpt : Option ArrSt)
    (op : BatchOp) (ord : Str → Str → Int) : Option SetErr × Option ArrSt :=
  match newOpt with
  | none => (some SetErr.internal, attr)   -- !newpas → PBSE_INTERNAL
  | some newpas =>
    match attr with
    | some pas =>
      let r := setBody plan pas newpas op ord
      (r.1, some r.2)
    | none =>
      -- no array_strings control structure, make one (attr_fn_acl.c:361-376)
      if plan.mkPas then
        let r := setBody plan ⟨[], 0, newpas.npointers⟩ newpas op ord
        (r.1, some r.2)
      else (some SetErr.system, none)

def set_uacl (plan : AllocPlan) (attr newOpt : Option ArrSt) (op : BatchOp) :
    Option SetErr × Option ArrSt :=
  set_allacl plan attr newOpt op user_order

def set_gacl (plan : AllocPlan) (attr newOpt : Option ArrSt) (op : BatchOp) :
    Option SetErr × Option ArrSt :=
  set_allacl plan attr newOpt op group_order

def set_hostacl (plan : AllocPlan) (attr newOpt : Option ArrSt) (op : BatchOp) :
    Option SetErr × Option ArrSt :=
  set_allacl plan attr newOpt op host_order

/-- The stored entries of an attribute (an absent struct holds none). -/
def entriesOf : Option ArrSt → List Str
  | none => []
  | some p => p.entries

/-! ## `acl_check` — authorization decision (attr_fn_acl.c:202-273) -/

inductive AclType where
  | Host | User | Group | Subnet | Generic
deriving DecidableEq, Repr

/-- The per-type match function chosen by the `switch` in `acl_check`
(attr_fn_acl.c:217-233).  `gOr` is the external group-membership
directory (the `gacl_match` collaborator); any type code other than the
four ACL types falls back to `strcmp`, i.e. plain equality. -/
def matchOf (t : AclType) (gOr : Str → Str → Bool) : Str → Str → Bool :=
  match t with
  | AclType.Host => hacl_match
  | AclType.User => user_match
  | AclType.Group => gOr
  | AclType.Subnet => sacl_match
  | AclType.Generic => fun n p => n == p

/-- Strip one leading sign as done inside the scan loop
(`pstr++` at attr_fn_acl.c:263). -/
def stripOne (e : Str) : Str :=
  match e with
  | '+' :: t => t
  | '-' :: t => t
  | _ => e

/-- A bare `"+"`/`"-"` entry updates the running default
(attr_fn_acl.c:256-262). -/
def updDefault (d : Bool) (e : Str) : Bool :=
  match e with
  | ['+'] => true
  | ['-'] => false
  | _ => d

/-- The scan loop of `acl_check` (attr_fn_acl.c:254-272): `d` is the
running default. -/
def aclScan (mf : Str → Str → Bool) (name : Str) : Bool → List Str → Bool
  | d, [] => d
  | d, e :: rest =>
    let d' := updDefault d e
    if mf name (stripOne e) then decide (e.head? ≠ some '-')
    else aclScan mf name d' rest

/-- `acl_check(pattr, name, type)`; `true` = access allowed.
`defaultAll` is the `HOST_ACL_DEFAULT_ALL` build flag; `serverHost` is
the external `server_host` configuration value; `pattr = none` covers
both an unset attribute and a NULL `at_arst`, `some []` a set but empty
list (`as_usedptr == 0`) — all three take the same branch. -/
def acl_check (defaultAll : Bool) (gOr : Str → Str → Bool) (serverHost : Str)
    (pattr : Option (List Str)) (name : Option Str) (t : AclType) : Bool :=
  match name with
  | none => defaultAll
  | some nm =>
    match pattr with
    | none =>
      if defaultAll then true
      else if t = AclType.Host then hacl_match nm serverHost else false
    | some [] =>
      if defaultAll then true
      else if t = AclType.Host then hacl_match nm serverHost else false
    | some (e :: rest) => aclScan (matchOf t gOr) nm defaultAll (e :: rest)

/-- The duplicate condition of claim C5: two byte-identical operand
entries at distinct positions, or an operand entry byte-identical to an
existing entry. -/
def HasDup (new old : List Str) : Prop :=
  (∃ i j, ∃ (hi : i < new.length) (hj : j < new.length),
      i ≠ j ∧ new.get ⟨i, hi⟩ = new.get ⟨j, hj⟩) ∨
    ∃ s, s ∈ new ∧ s ∈ old

/-- Two entries that are sign-variants of the same `'*'`-led pattern:
the only pairs on which `host_order` reports "sorts after" in *both*
directions (the wildcard tie rule at attr_fn_acl.c:839-842 returns 1
whenever the first argument's remaining character is `'*'`). -/
def starPair (x y : Str) : Prop :=
  stripSign x = stripSign y ∧ (stripSign x).head? = some '*'

/-- The adjacency invariant of claim C2, weakened by the `starPair`
exception that the comparator forces. -/
def aclRel (x y : Str) : Prop :=
  host_order x y ≤ 0 ∨ starPair x y

instance (x y : Str) : Decidable (starPair x y) :=
  decidable_of_iff (stripSign x = stripSign y ∧ (stripSign x).head? = some '*') Iff.rfl

instance (x y : Str) : Decidable (aclRel x y) :=
  decidable_of_iff (host_order x y ≤ 0 ∨ starPair x y) Iff.rfl

/-! ## Concrete evaluations (spec §8 examples and edge cases) -/

example : user_match "alice".toList "alice@anyhost.example.com".toList = false := by decide
example : user_match "alice@x.example.com".toList "alice".toList = true := by decide
example : user_match "alice@x.example.com".toList "alice@*.example.com".toList = true := by decide
example : user_match "alice@x.example.org".toList "alice@*.example.com".toList = false := by decide
example : sacl_match "10.0.0.5".toList "10.0.0.0/24".toList = true := by decide
example : sacl_match "10.0.1.5".toList "10.0.0.0/24".toList = false := by decide
example : sacl_match "10.0.0.5".toList "10.0.0.0/0".toList = false := by decide
example : sacl_match "10.0.0.5".toList "10.0.0.0/255.255.255.0".toList = true := by decide
example : sacl_match "10.0.0.1".toList "10.0.0.0/24x".toList = true := by decide
example :
    acl_check false (fun _ _ => false) "srv".toList
      (some ["-a.example.com".toList, "+*.example.com".toList])
      (some "a.example.com".toList) AclType.Host = false := by decide
example :
    acl_check false (fun _ _ => false) "srv".toList
      (some ["-a.example.com".toList, "+*.example.com".toList])
      (some "b.example.com".toList) AclType.Host = true := by decide
example :
    acl_check false (fun _ _ => false) "srv".toList none
      (some "srv".toList) AclType.Host = true := by decide
example :
    (set_hostacl allocOK none
      (some ⟨["-a.example.com".toList, "+*.example.com".toList], 0, 2⟩)
      BatchOp.SET).2.map ArrSt.entries =
      some ["-a.example.com".toList, "+*.example.com".toList] := by decide
example : hacl_match "a.example.com".toList "*.example.com".toList = true := by decide
example : hacl_match "x".toList "*x".toList = false := by decide
example : hacl_match "yx".toList "*x".toList = true := by decide
example : hacl_match "A.B".toList "a.b".toList = true := by decide
example : host_order "+*".toList "*".toList = 1 := by decide
example : host_order "*".toList "+*".toList = 1 := by decide
example : user_order_mem "bob".toList "x".toList "bob".toList [] = 1 := by decide
example : user_order_mem "bob".toList [] "bob".toList [] = -1 := by decide

/-! ## Small evaluation lemmas for the match functions -/

lemma haclLoop_nil (c : List Char) : haclLoop c [] = false := by
  cases c with
  | nil => rfl
  | cons a t => cases t <;> rfl

lemma hacl_match_nil (nm : Str) : hacl_match nm [] = false :=
  haclLoop_nil nm.reverse

lemma sacl_match_nil (nm : Str) : sacl_match nm [] = false := by
  unfold sacl_match
  cases h : parseIPv4 nm <;> simp [splitFirst]

/-- The match function of every ACL type reports a non-match against
the empty pattern — for `User` and `Generic` only when the candidate is
nonempty, and for `Group` only when the external directory reports no
membership in the group with empty name. -/
lemma matchOf_nil (t : AclType) (gOr : Str → Str → Bool) (nm : Str)
    (hnm : (t = AclType.Generic ∨ t = AclType.User) → nm ≠ [])
    (hg : t = AclType.Group → gOr nm [] = false) :
    matchOf t gOr nm [] = false := by
  cases t with
  | Host => exact hacl_match_nil nm
  | User =>
    cases nm with
    | nil => exact absurd rfl (hnm (Or.inr rfl))
    | cons c ct => rfl
  | Group => exact hg rfl
  | Subnet => exact sacl_match_nil nm
  | Generic =>
    cases nm with
    | nil => exact absurd rfl (hnm (Or.inl rfl))
    | cons c ct => rfl

/-! ## C3 — bare `"+"` / `"-"` entries during the scan -/

/-- C3 (amended), main theorem.  A stored entry that is exactly `"+"`
or `"-"` updates the running default to allow/deny; the scan then
*does* invoke the match function on the empty remainder
(attr_fn_acl.c:263-265 strips the sign and falls through), but that
match never succeeds for Host and Subnet ACLs, nor for User and
Generic ACLs with a nonempty candidate, nor for Group ACLs when the
directory reports no membership in the empty-named group — so under
those conditions the scan continues exactly as the claim states. -/
theorem aclScan_sign_entry (t : AclType) (gOr : Str → Str → Bool) (nm : Str)
    (d : Bool) (s : Char) (rest : List Str)
    (hs : s = '+' ∨ s = '-')
    (hnm : (t = AclType.Generic ∨ t = AclType.User) → nm ≠ [])
    (hg : t = AclType.Group → gOr nm [] = false) :
    aclScan (matchOf t gOr) nm d ([s] :: rest) =
      aclScan (matchOf t gOr) nm (decide (s = '+')) rest := by
  have hmf : matchOf t gOr nm [] = false := matchOf_nil t gOr nm hnm hg
  rcases hs with rfl | rfl <;>
    simp [aclScan, stripOne, updDefault, hmf]

/-- C3, witness for the amended theorem: a Host ACL scan over
`["-", "x"]` with candidate `"x"` skips the bare `"-"` (updating the
default) and then denies at `"x"`…, i.e. the first step rewrites to the
scan of the tail with default `deny`. -/
theorem aclScan_sign_entry_witness :
    aclScan (matchOf AclType.Host (fun _ _ => false)) ['x'] true ([['-'], ['x']]) =
      aclScan (matchOf AclType.Host (fun _ _ => false)) ['x'] (decide (('-') = '+'))
        [['x']] :=
  aclScan_sign_entry AclType.Host (fun _ _ => false) ['x'] true '-' [['x']]
    (Or.inr rfl) (fun h => by cases h <;> simp_all) (fun h => by cases h)

/-- C3, counterexample.  For the Generic ACL type and the empty
candidate, the bare entry `"+"` *does* terminate the scan: after the
sign is stripped the remainder `""` is compared with `strcmp` against
the empty candidate and matches, so `acl_check` returns allow — whereas
the claim (sign-only entries only update the running default and the
scan continues) would make the result the final running default, which
after `["+", "-"]` is deny. -/
theorem aclScan_sign_entry_terminates :
    acl_check false (fun _ _ => false) [] (some [['+'], ['-']]) (some [])
      AclType.Generic = true ∧
    updDefault (updDefault false ['+']) ['-'] = false := by
  decide

/-! ## C9 — the Generic (default) ACL type matches by `strcmp` -/

/-- C9, main theorem.  For any type code other than the four ACL types
(`strcmp` fallback), the scan decides a non-empty stored entry by exact
case-sensitive equality of the candidate with the entry after one
leading `'+'`/`'-'` has been stripped; on equality the scan terminates
with the entry's sign decision, otherwise it continues with the
(possibly updated) running default. -/
theorem acl_check_generic_strcmp (dA : Bool) (gOr : Str → Str → Bool) (sh nm e : Str)
    (rest : List Str) (_he : e ≠ []) :
    acl_check dA gOr sh (some (e :: rest)) (some nm) AclType.Generic =
      if nm = stripOne e then decide (e.head? ≠ some '-')
      else aclScan (matchOf AclType.Generic gOr) nm (updDefault dA e) rest := by
  show aclScan (matchOf AclType.Generic gOr) nm dA (e :: rest) = _
  by_cases h : nm = stripOne e <;>
    simp [aclScan, matchOf, h]

/-- C9, witness: candidate `"x"` against the stored entry `"+x"`. -/
theorem acl_check_generic_strcmp_witness :
    (['+', 'x'] : Str) ≠ [] ∧
    acl_check false (fun _ _ => false) [] (some [['+', 'x']]) (some ['x'])
        AclType.Generic =
      if (['x'] : Str) = stripOne ['+', 'x'] then decide ((['+', 'x'] : Str).head? ≠ some '-')
      else aclScan (matchOf AclType.Generic (fun _ _ => false)) ['x']
        (updDefault false ['+', 'x']) [] :=
  ⟨by decide,
   acl_check_generic_strcmp false (fun _ _ => false) [] ['x'] ['+', 'x'] []
     (by decide)⟩

/-! ## C7 — `user_order` reads past the end of the strings -/

/-- C7, main theorem.  When the sign-stripped user portions are equal
and neither contains `'@'` (input `"bob"` vs `"+bob"`), `user_order`
applies `host_order` to the bytes that follow each string's NUL
terminator: the result is `host_order b1 b2` for whatever strings
`b1`, `b2` happen to lie there, and two different memory contents give
two different results (1 vs −1), so the comparison is **not** a
function of the two strings and does read past their ends. -/
theorem user_order_reads_past_end :
    (∀ b1 b2 : Str,
      user_order_mem ['b', 'o', 'b'] b1 ['+', 'b', 'o', 'b'] b2 = host_order b1 b2) ∧
    user_order_mem ['b', 'o', 'b'] ['x'] ['+', 'b', 'o', 'b'] [] = 1 ∧
    user_order_mem ['b', 'o', 'b'] [] ['+', 'b', 'o', 'b'] [] = -1 := by
  refine ⟨fun b1 b2 => ?_, by decide, by decide⟩
  rfl

/-! ## C5 — duplicate detection for Add -/

lemma chk_dup_iff (old new : List Str) :
    chk_dup_acl old new = true ↔ HasDup new old := by
  unfold chk_dup_acl HasDup
  rw [List.any_eq_true]
  constructor
  · rintro ⟨⟨i, s⟩, hmem, hp⟩
    rw [List.mk_mem_enum_iff_getElem?] at hmem
    obtain ⟨hi, hgi⟩ := List.getElem?_eq_some.mp hmem
    rcases Bool.or_eq_true _ _ |>.mp hp with hinner | houter
    · rw [List.any_eq_true] at hinner
      obtain ⟨⟨j, t⟩, hmemj, hb⟩ := hinner
      rw [List.mk_mem_enum_iff_getElem?] at hmemj
      obtain ⟨hj, hgj⟩ := List.getElem?_eq_some.mp hmemj
      obtain ⟨hne, hst⟩ := Bool.and_eq_true _ _ |>.mp hb
      refine Or.inl ⟨i, j, hi, hj, of_decide_eq_true hne, ?_⟩
      simp only [List.get_eq_getElem]
      rw [hgi, hgj]
      exact eq_of_beq hst
    · rw [List.any_eq_true] at houter
      obtain ⟨t, hmt, hst⟩ := houter
      refine Or.inr ⟨s, ?_, ?_⟩
      · exact List.getElem?_mem hmem
      · have hst2 : s = t := eq_of_beq hst
        rw [hst2]; exact hmt
  · rintro (⟨i, j, hi, hj, hne, heq⟩ | ⟨s, hsn, hso⟩)
    · refine ⟨(i, new.get ⟨i, hi⟩), ?_, ?_⟩
      · rw [List.mk_mem_enum_iff_getElem?]
        simp [List.getElem?_eq_getElem hi]
      · apply Bool.or_eq_true _ _ |>.mpr
        left
        rw [List.any_eq_true]
        refine ⟨(j, new.get ⟨j, hj⟩), ?_, ?_⟩
        · rw [List.mk_mem_enum_iff_getElem?]
          simp [List.getElem?_eq_getElem hj]
        · apply Bool.and_eq_true _ _ |>.mpr
          exact ⟨decide_eq_true hne, beq_iff_eq.mpr heq⟩
    · obtain ⟨i, hi, rfl⟩ := List.mem_iff_getElem.mp hsn
      refine ⟨(i, new[i]), ?_, ?_⟩
      · rw [List.mk_mem_enum_iff_getElem?]
        simp [List.getElem?_eq_getElem hi]
      · apply Bool.or_eq_true _ _ |>.mpr
        right
        rw [List.any_eq_true]
        exact ⟨new[i], hso, beq_iff_eq.mpr rfl⟩

/-- C5, main theorem.  For an Add (`INCR`) with all allocations
succeeding: if the operand entries together with the existing entries
contain a repeated byte-identical string, the operation fails with
`DuplicateEntry` and the stored entries are unchanged; an Add with no
such duplicate succeeds. -/
theorem set_allacl_incr_duplicates (attr : Option ArrSt) (newpas : ArrSt)
    (ord : Str → Str → Int) :
    (HasDup newpas.entries (entriesOf attr) →
      (set_allacl allocOK attr (some newpas) BatchOp.INCR ord).1 = some SetErr.duplist ∧
      entriesOf (set_allacl allocOK attr (some newpas) BatchOp.INCR ord).2 =
        entriesOf attr) ∧
    (¬HasDup newpas.entries (entriesOf attr) →
      (set_allacl allocOK attr (some newpas) BatchOp.INCR ord).1 = none) := by
  cases attr with
  | some pas =>
    constructor
    · intro hdup
      have hchk : chk_dup_acl pas.entries newpas.entries = true :=
        (chk_dup_iff pas.entries newpas.entries).mpr hdup
      constructor
      · show (incrBody allocOK pas newpas ord).1 = some SetErr.duplist
        dsimp only [incrBody]
        rw [if_pos hchk]
      · show (incrBody allocOK pas newpas ord).2.entries = pas.entries
        dsimp only [incrBody]
        rw [if_pos hchk]
    · intro hdup
      have hchk : chk_dup_acl pas.entries newpas.entries = false := by
        rcases Bool.eq_false_or_eq_true (chk_dup_acl pas.entries newpas.entries) with h | h
        · exact absurd ((chk_dup_iff pas.entries newpas.entries).mp h) hdup
        · exact h
      show (incrBody allocOK pas newpas ord).1 = none
      simp [incrBody, hchk, allocOK]
  | none =>
    constructor
    · intro hdup
      have hchk : chk_dup_acl [] newpas.entries = true :=
        (chk_dup_iff [] newpas.entries).mpr hdup
      constructor
      · show (incrBody allocOK ⟨[], 0, newpas.npointers⟩ newpas ord).1 = some SetErr.duplist
        dsimp only [incrBody]
        rw [if_pos hchk]
      · show (incrBody allocOK ⟨[], 0, newpas.npointers⟩ newpas ord).2.entries = []
        dsimp only [incrBody]
        rw [if_pos hchk]
    · intro hdup
      have hchk : chk_dup_acl [] newpas.entries = false := by
        rcases Bool.eq_false_or_eq_true (chk_dup_acl [] newpas.entries) with h | h
        · exact absurd ((chk_dup_iff [] newpas.entries).mp h) hdup
        · exact h
      show (incrBody allocOK ⟨[], 0, newpas.npointers⟩ newpas ord).1 = none
      simp [incrBody, hchk, allocOK]

/-- C5, witness: adding `["a"]` to an ACL already holding `"a"` is
rejected with `DuplicateEntry` and leaves the value unchanged, while
adding `["b"]` succeeds. -/
theorem set_allacl_incr_duplicates_witness :
    ((set_allacl allocOK (some ⟨[['a']], 2, 1⟩) (some ⟨[['a']], 0, 1⟩)
        BatchOp.INCR host_order).1 = some SetErr.duplist ∧
      entriesOf (set_allacl allocOK (some ⟨[['a']], 2, 1⟩) (some ⟨[['a']], 0, 1⟩)
        BatchOp.INCR host_order).2 = entriesOf (some ⟨[['a']], 2, 1⟩)) ∧
    (set_allacl allocOK (some ⟨[['a']], 2, 1⟩) (some ⟨[['b']], 0, 1⟩)
        BatchOp.INCR host_order).1 = none :=
  ⟨(set_allacl_incr_duplicates (some ⟨[['a']], 2, 1⟩) ⟨[['a']], 0, 1⟩ host_order).1
      (Or.inr ⟨['a'], by decide, by decide⟩),
   (set_allacl_incr_duplicates (some ⟨[['a']], 2, 1⟩) ⟨[['b']], 0, 1⟩ host_order).2
      (fun h => absurd ((chk_dup_iff (entriesOf (some ⟨[['a']], 2, 1⟩))
        [['b']]).mpr h) (by decide))⟩

/-! ## Helper lemmas about `incrBody` / `setBody` -/

lemma incrBody_fail (plan : AllocPlan) (pas newpas : ArrSt) (ord : Str → Str → Int) :
    (incrBody plan pas newpas ord).1 ≠ none →
    (incrBody plan pas newpas ord).2.entries = pas.entries := by
  dsimp only [incrBody]
  split_ifs <;> intro h <;> first
    | rfl
    | exact absurd rfl h

lemma incrBody_ok_entries (plan : AllocPlan) (pas newpas : ArrSt) (ord : Str → Str → Int) :
    (incrBody plan pas newpas ord).1 = none →
    (incrBody plan pas newpas ord).2.entries =
      newpas.entries.foldl (insertAcl ord) pas.entries := by
  dsimp only [incrBody]
  split_ifs <;> intro h <;> first
    | rfl
    | exact absurd h (by simp)

lemma setBody_set_fail (plan : AllocPlan) (pas newpas : ArrSt) (ord : Str → Str → Int) :
    (setBody plan pas newpas BatchOp.SET ord).1 ≠ none →
    (setBody plan pas newpas BatchOp.SET ord).2.entries = [] := by
  dsimp only [setBody]
  split_ifs with h1 h2 h3 <;> intro h
  · exact absurd rfl h
  · exact incrBody_fail plan _ newpas ord h
  · rfl
  · exact incrBody_fail plan _ newpas ord h

lemma setBody_fail (plan : AllocPlan) (pas newpas : ArrSt) (op : BatchOp)
    (ord : Str → Str → Int) (hop : op ≠ BatchOp.SET) :
    (setBody plan pas newpas op ord).1 ≠ none →
    (setBody plan pas newpas op ord).2.entries = pas.entries := by
  cases op with
  | SET => exact absurd rfl hop
  | INCR => exact incrBody_fail plan pas newpas ord
  | DECR => intro h; exact absurd rfl h
  | OTHER => intro _; rfl

/-- C1 (amended), main theorem.
For every ACL mutation applied through `set_allacl`, a failure with any
error (`Internal`, `AllocationFailure` = `system`, or `DuplicateEntry`)
leaves the stored entries unchanged — **except** for a Replace (`SET`),
which clears the old entries *before* the duplicate check and the
buffer allocation, so a failing Replace leaves the attribute either
unchanged (failures before the clear) or emptied. -/
theorem set_allacl_failure_atomicity (plan : AllocPlan) (attr newOpt : Option ArrSt)
    (op : BatchOp) (ord : Str → Str → Int)
    (hfail : (set_allacl plan attr newOpt op ord).1 ≠ none) :
    (op ≠ BatchOp.SET → entriesOf (set_allacl plan attr newOpt op ord).2 = entriesOf attr) ∧
    (op = BatchOp.SET → entriesOf (set_allacl plan attr newOpt op ord).2 = entriesOf attr ∨
      entriesOf (set_allacl plan attr newOpt op ord).2 = []) := by
  cases newOpt with
  | none => exact ⟨fun _ => rfl, fun _ => Or.inl rfl⟩
  | some newpas =>
    cases attr with
    | some pas =>
      constructor
      · intro hop
        show (setBody plan pas newpas op ord).2.entries = pas.entries
        exact setBody_fail plan pas newpas op ord hop hfail
      · rintro rfl
        right
        show (setBody plan pas newpas BatchOp.SET ord).2.entries = []
        exact setBody_set_fail plan pas newpas ord hfail
    | none =>
      by_cases hp : plan.mkPas
      · have heq : set_allacl plan none (some newpas) op ord =
            ((setBody plan ⟨[], 0, newpas.npointers⟩ newpas op ord).1,
              some (setBody plan ⟨[], 0, newpas.npointers⟩ newpas op ord).2) := by
          simp [set_allacl, hp]
        rw [heq] at hfail ⊢
        constructor
        · intro hop
          exact setBody_fail plan _ newpas op ord hop hfail
        · rintro rfl
          exact Or.inr (setBody_set_fail plan _ newpas ord hfail)
      · have heq : set_allacl plan none (some newpas) op ord = (some SetErr.system, none) := by
          simp [set_allacl, hp]
        rw [heq]
        exact ⟨fun _ => rfl, fun _ => Or.inl rfl⟩

/-- C1, witness: a failing Add (duplicate operand) leaves the entries
untouched. -/
theorem set_allacl_failure_atomicity_witness :
    (set_allacl allocOK (some ⟨[['a']], 2, 1⟩) (some ⟨[['a']], 0, 1⟩)
        BatchOp.INCR host_order).1 ≠ none ∧
    entriesOf (set_allacl allocOK (some ⟨[['a']], 2, 1⟩) (some ⟨[['a']], 0, 1⟩)
        BatchOp.INCR host_order).2 = entriesOf (some ⟨[['a']], 2, 1⟩) :=
  ⟨by decide,
   (set_allacl_failure_atomicity allocOK (some ⟨[['a']], 2, 1⟩) (some ⟨[['a']], 0, 1⟩)
      BatchOp.INCR host_order (by decide)).1 (by decide)⟩

/-- C1, counterexample: a Replace (`SET`) whose operand list contains a
duplicate fails with `DuplicateEntry` but has already cleared the old
value (`["a"]` becomes `[]`), contradicting the claim that *every*
failing mutation leaves the OSS in its pre-operation state. -/
theorem set_allacl_set_dup_clears :
    (set_allacl allocOK (some ⟨[['a']], 2, 1⟩) (some ⟨[['b'], ['b']], 0, 2⟩)
        BatchOp.SET host_order).1 = some SetErr.duplist ∧
    entriesOf (some (⟨[['a']], 2, 1⟩ : ArrSt)) = [['a']] ∧
    entriesOf (set_allacl allocOK (some ⟨[['a']], 2, 1⟩) (some ⟨[['b'], ['b']], 0, 2⟩)
        BatchOp.SET host_order).2 = [] := by
  decide

/-! ## C8 — the DECR (Remove) branch -/

lemma removeFirst_eq_erase (l : List Str) (x : Str) : removeFirst l x = l.erase x := by
  induction l with
  | nil => rfl
  | cons e rest ih =>
    rw [removeFirst, List.erase_cons]
    by_cases h : e = x
    · simp [h]
    · simp [h, ih]

lemma removeFirst_sublist (l : List Str) (x : Str) : (removeFirst l x).Sublist l := by
  rw [removeFirst_eq_erase]
  exact List.erase_sublist x l

lemma removeFirst_not_mem (l : List Str) (x : Str) (h : x ∉ l) : removeFirst l x = l := by
  rw [removeFirst_eq_erase]
  exact List.erase_of_not_mem h

lemma foldl_removeFirst_sublist (ops : List Str) :
    ∀ l : List Str, (ops.foldl removeFirst l).Sublist l := by
  induction ops with
  | nil => exact fun l => List.Sublist.refl l
  | cons x xs ih =>
    intro l
    exact (ih (removeFirst l x)).trans (removeFirst_sublist l x)

/-- C8, main theorem.  A Remove (`DECR`) mutation always succeeds; each
operand entry removes the first stored entry that is byte-for-byte
equal to it (`removeFirst` = `List.erase`, exact match including the
sign prefix); operand entries with no match leave the list unchanged;
and the surviving entries keep their relative order (the result is a
sublist of the original). -/
theorem set_allacl_decr (attr : Option ArrSt) (newpas : ArrSt) (ord : Str → Str → Int) :
    (set_allacl allocOK attr (some newpas) BatchOp.DECR ord).1 = none ∧
    entriesOf (set_allacl allocOK attr (some newpas) BatchOp.DECR ord).2 =
      newpas.entries.foldl removeFirst (entriesOf attr) ∧
    entriesOf (set_allacl allocOK attr (some newpas) BatchOp.DECR ord).2 =
      newpas.entries.foldl (fun l x => l.erase x) (entriesOf attr) ∧
    (entriesOf (set_allacl allocOK attr (some newpas) BatchOp.DECR ord).2).Sublist
      (entriesOf attr) ∧
    (∀ x : Str, x ∉ entriesOf attr → removeFirst (entriesOf attr) x = entriesOf attr) := by
  have hfold : ∀ l : List Str,
      newpas.entries.foldl removeFirst l = newpas.entries.foldl (fun l x => l.erase x) l := by
    intro l
    have h : removeFirst = fun (l : List Str) (x : Str) => l.erase x := by
      funext l x
      exact removeFirst_eq_erase l x
    rw [h]
  cases attr with
  | some pas =>
    refine ⟨rfl, rfl, hfold pas.entries, ?_, fun x hx => removeFirst_not_mem _ x hx⟩
    exact foldl_removeFirst_sublist newpas.entries pas.entries
  | none =>
    refine ⟨rfl, rfl, hfold [], ?_, fun x hx => removeFirst_not_mem _ x hx⟩
    exact foldl_removeFirst_sublist newpas.entries []

/-! ## C10 — case/sign-insensitive near-duplicates pass the Add check -/

lemma toNat_ofNat_of_valid {n : Nat} (h : n.isValidChar) : (Char.ofNat n).toNat = n := by
  rw [Char.ofNat, dif_pos h]
  rfl

lemma toLower_eq_star_iff (c : Char) : c.toLower = '*' ↔ c = '*' := by
  constructor
  · intro h
    rw [Char.toLower] at h
    split_ifs at h with hc
    · exfalso
      obtain ⟨h1, h2⟩ := hc
      have hv : (c.toNat + 32).isValidChar := Or.inl (by omega)
      have hn := congrArg Char.toNat h
      rw [toNat_ofNat_of_valid hv] at hn
      have : ('*').toNat = 42 := by decide
      omega
    · exact h
  · rintro rfl
    decide

lemma haclLoop_short1 (m0 m1 : Char) (ms : List Char) :
    haclLoop [] (m0 :: m1 :: ms) = false := rfl

lemma haclLoop_short2 (c0 m0 m1 : Char) (ms : List Char) :
    haclLoop [c0] (m0 :: m1 :: ms) = false := rfl

/-- `hacl_match` inspects the master pattern only through
`Char.toLower` (and the raw `'*'` test, which `Char.toLower` cannot
confuse with another character). -/
lemma haclLoop_toLower_congr :
    ∀ (m m' : List Char), m.map Char.toLower = m'.map Char.toLower →
      ∀ c, haclLoop c m = haclLoop c m' := by
  intro m
  induction m with
  | nil =>
    intro m' h c
    have hm : m' = [] := by
      simpa using h.symm
    subst hm
    rfl
  | cons m0 mt ih =>
    intro m' h c
    cases m' with
    | nil => simp at h
    | cons m0' mt' =>
      simp only [List.map_cons, List.cons.injEq] at h
      obtain ⟨h0, ht⟩ := h
      cases mt with
      | nil =>
        have hm : mt' = [] := by
          simpa using ht.symm
        subst hm
        by_cases hstar : m0 = '*'
        · have hstar2 : m0' = '*' := by
            rw [← toLower_eq_star_iff, ← h0, hstar]
            decide
          rw [hstar, hstar2]
        · have hstar2 : m0' ≠ '*' := by
            intro hh
            apply hstar
            rw [← toLower_eq_star_iff, h0, hh]
            decide
          cases c with
          | nil => simp [haclLoop, hstar, hstar2]
          | cons c0 cs =>
            cases cs with
            | nil => simp [haclLoop, hstar, hstar2, h0]
            | cons c1 cs' => simp [haclLoop, hstar, hstar2]
      | cons m1 ms =>
        cases mt' with
        | nil => simp at ht
        | cons m1' ms' =>
          cases c with
          | nil => rw [haclLoop_short1, haclLoop_short1]
          | cons c0 cs =>
            cases cs with
            | nil => rw [haclLoop_short2, haclLoop_short2]
            | cons c1 cs' =>
              show haclLoop (c0 :: c1 :: cs') (m0 :: m1 :: ms) =
                haclLoop (c0 :: c1 :: cs') (m0' :: m1' :: ms')
              simp only [haclLoop, h0]
              by_cases hc : c0.toLower = m0'.toLower
              · simp only [hc, if_true]
                exact ih (m1' :: ms') ht (c1 :: cs')
              · simp [hc]

lemma hacl_match_toLower_congr (nm m m' : Str)
    (h : m.map Char.toLower = m'.map Char.toLower) :
    hacl_match nm m = hacl_match nm m' := by
  unfold hacl_match
  apply haclLoop_toLower_congr
  rw [List.map_reverse, List.map_reverse, h]

/-- C10, main theorem.  Duplicate detection compares entries
byte-exactly while Host matching is case- and sign-insensitive: adding
`"A.B"` to a Host ACL holding `"a.b"` succeeds (no `DuplicateEntry`),
leaving two distinct stored entries that match exactly the same
candidates, and likewise adding `"+a.b"` succeeds although after sign
stripping it matches identically to `"a.b"`. -/
theorem host_acl_near_duplicates :
    ((set_hostacl allocOK (some ⟨[['a', '.', 'b']], 4, 1⟩)
        (some ⟨[['A', '.', 'B']], 0, 1⟩) BatchOp.INCR).1 = none ∧
      entriesOf (set_hostacl allocOK (some ⟨[['a', '.', 'b']], 4, 1⟩)
        (some ⟨[['A', '.', 'B']], 0, 1⟩) BatchOp.INCR).2 =
        [['a', '.', 'b'], ['A', '.', 'B']]) ∧
    (∀ c : Str, hacl_match c ['A', '.', 'B'] = hacl_match c ['a', '.', 'b']) ∧
    ((set_hostacl allocOK (some ⟨[['a', '.', 'b']], 4, 1⟩)
        (some ⟨[['+', 'a', '.', 'b']], 0, 1⟩) BatchOp.INCR).1 = none ∧
      entriesOf (set_hostacl allocOK (some ⟨[['a', '.', 'b']], 4, 1⟩)
        (some ⟨[['+', 'a', '.', 'b']], 0, 1⟩) BatchOp.INCR).2 =
        [['a', '.', 'b'], ['+', 'a', '.', 'b']]) ∧
    stripOne ['+', 'a', '.', 'b'] = stripOne ['a', '.', 'b'] := by
  refine ⟨by decide, fun c => hacl_match_toLower_congr c _ _ (by decide), by decide, by decide⟩

/-! ## C2 — the sort invariant after mutations -/

lemma hoLoop_antisym :
    ∀ (r1 r2 : List Char), 0 < hoLoop r1 r2 → 0 < hoLoop r2 r1 →
      r1 = r2 ∧ r1.getLast? = some '*' := by
  intro r1
  induction r1 with
  | nil =>
    intro r2 h1 _
    have e : hoLoop [] r2 = -1 := by cases r2 <;> rfl
    rw [e] at h1
    omega
  | cons a0 t1 ih =>
    intro r2 h1 h2
    cases t1 with
    | nil =>
      cases r2 with
      | nil =>
        have e : hoLoop [] [a0] = -1 := rfl
        rw [e] at h2
        omega
      | cons b0 t2 =>
        cases t2 with
        | nil =>
          by_cases ha : a0 = '*'
          · by_cases hb : b0 = '*'
            · subst ha
              subst hb
              exact ⟨rfl, rfl⟩
            · have e : hoLoop [b0] [a0] = -1 := by simp [hoLoop, ha, hb]
              rw [e] at h2
              omega
          · by_cases hb : b0 = '*'
            · have e : hoLoop [a0] [b0] = -1 := by simp [hoLoop, ha, hb]
              rw [e] at h1
              omega
            · have e1 : hoLoop [a0] [b0] = (b0.toNat : Int) - (a0.toNat : Int) := by
                simp [hoLoop, ha, hb]
              have e2 : hoLoop [b0] [a0] = (a0.toNat : Int) - (b0.toNat : Int) := by
                simp [hoLoop, ha, hb]
              rw [e1] at h1
              rw [e2] at h2
              omega
        | cons b1 t2' =>
          have e : hoLoop (b0 :: b1 :: t2') [a0] = -1 := rfl
          rw [e] at h2
          omega
    | cons a1 t1' =>
      cases r2 with
      | nil =>
        have e : hoLoop (a0 :: a1 :: t1') [] = -1 := rfl
        rw [e] at h1
        omega
      | cons b0 t2 =>
        cases t2 with
        | nil =>
          have e : hoLoop (a0 :: a1 :: t1') [b0] = -1 := rfl
          rw [e] at h1
          omega
        | cons b1 t2' =>
          by_cases hd : (b0.toNat : Int) - (a0.toNat : Int) = 0
          · have hd2 : (a0.toNat : Int) - (b0.toNat : Int) = 0 := by omega
            have ha0 : a0 = b0 := by
              have hn : a0.toNat = b0.toNat := by omega
              calc a0 = Char.ofNat a0.toNat := (Char.ofNat_toNat a0).symm
                _ = Char.ofNat b0.toNat := by rw [hn]
                _ = b0 := Char.ofNat_toNat b0
            have e1 : hoLoop (a0 :: a1 :: t1') (b0 :: b1 :: t2') =
                hoLoop (a1 :: t1') (b1 :: t2') := by simp [hoLoop, hd]
            have e2 : hoLoop (b0 :: b1 :: t2') (a0 :: a1 :: t1') =
                hoLoop (b1 :: t2') (a1 :: t1') := by simp [hoLoop, hd2]
            rw [e1] at h1
            rw [e2] at h2
            obtain ⟨heq, hl⟩ := ih (b1 :: t2') h1 h2
            constructor
            · rw [ha0, heq]
            · rw [List.getLast?_cons_cons]
              exact hl
          · have hd2 : (a0.toNat : Int) - (b0.toNat : Int) ≠ 0 := by omega
            have e1 : hoLoop (a0 :: a1 :: t1') (b0 :: b1 :: t2') =
                (b0.toNat : Int) - (a0.toNat : Int) := by simp [hoLoop, hd]
            have e2 : hoLoop (b0 :: b1 :: t2') (a0 :: a1 :: t1') =
                (a0.toNat : Int) - (b0.toNat : Int) := by simp [hoLoop, hd2]
            rw [e1] at h1
            rw [e2] at h2
            omega

/-- `host_order` reports "sorts strictly after" in both directions only
for sign-variants of one identical `'*'`-led string. -/
lemma host_order_antisym (x y : Str) (h1 : 0 < host_order x y)
    (h2 : 0 < host_order y x) : starPair x y := by
  obtain ⟨he, hl⟩ := hoLoop_antisym _ _ h1 h2
  constructor
  · have h3 := congrArg List.reverse he
    simpa using h3
  · rw [← List.getLast?_reverse]
    exact hl

lemma starPair_symm (x y : Str) (h : starPair x y) : starPair y x :=
  ⟨h.1.symm, by rw [← h.1]; exact h.2⟩

lemma insertAcl_head_cases (ord : Str → Str → Int) (l : List Str) (n : Str) :
    (insertAcl ord l n).head? = some n ∨ (insertAcl ord l n).head? = l.head? := by
  cases l with
  | nil => left; rfl
  | cons e rest =>
    by_cases hc : 0 < ord e n
    · left; simp [insertAcl, hc]
    · right; simp [insertAcl, hc]

/-- One sorted insertion preserves the (star-weakened) adjacency
invariant: the scan stops at the first entry that sorts after the new
one, so the predecessor satisfies `order ≤ 0` against the new entry,
and the successor satisfies it in reverse unless the pair is a
`starPair`. -/
lemma insertAcl_chain (n : Str) : ∀ l : List Str, List.Chain' aclRel l →
    List.Chain' aclRel (insertAcl host_order l n) := by
  intro l
  induction l with
  | nil =>
    intro _
    simp [insertAcl]
  | cons e rest ih =>
    intro h
    by_cases hc : 0 < host_order e n
    · simp only [insertAcl, if_pos hc]
      rw [List.chain'_cons]
      constructor
      · by_cases hc2 : 0 < host_order n e
        · exact Or.inr (starPair_symm e n (host_order_antisym e n hc hc2))
        · exact Or.inl (by omega)
      · exact h
    · simp only [insertAcl, if_neg hc]
      have hrest := (List.chain'_cons'.mp h).2
      have hhead := (List.chain'_cons'.mp h).1
      rw [List.chain'_cons']
      refine ⟨?_, ih hrest⟩
      intro y hy
      rcases insertAcl_head_cases host_order rest n with hh | hh
      · rw [hh] at hy
        have hyn : n = y := by simpa using hy
        subst hyn
        exact Or.inl (by omega)
      · rw [hh] at hy
        exact hhead y hy

lemma foldl_insertAcl_chain (ops : List Str) : ∀ l : List Str, List.Chain' aclRel l →
    List.Chain' aclRel (ops.foldl (insertAcl host_order) l) := by
  induction ops with
  | nil => exact fun _ h => h
  | cons x xs ih => exact fun l h => ih _ (insertAcl_chain x l h)

lemma setBody_set_ok_entries (plan : AllocPlan) (pas newpas : ArrSt)
    (ord : Str → Str → Int) :
    (setBody plan pas newpas BatchOp.SET ord).1 = none →
    (setBody plan pas newpas BatchOp.SET ord).2.entries = [] ∨
    (setBody plan pas newpas BatchOp.SET ord).2.entries =
      newpas.entries.foldl (insertAcl ord) [] := by
  dsimp only [setBody]
  split_ifs with h1 h2 h3 <;> intro h
  · left; rfl
  · right; exact incrBody_ok_entries plan _ newpas ord h
  · exact absurd h (by simp)
  · right; exact incrBody_ok_entries plan _ newpas ord h

/-- C2 (amended), main theorem.  After a successful Replace (`SET`) or
Add (`INCR`) on a Host ACL whose previous entry list already satisfied
the (star-weakened) adjacency invariant, every pair of adjacent stored
entries `e, e'` satisfies `host_order e e' ≤ 0` — except pairs whose
sign-stripped texts are the identical `'*'`-led string, for which the
comparator returns 1 in both directions. -/
theorem set_hostacl_sort_invariant (plan : AllocPlan) (attr : Option ArrSt)
    (newpas : ArrSt) (op : BatchOp) (hop : op = BatchOp.SET ∨ op = BatchOp.INCR)
    (hpre : List.Chain' aclRel (entriesOf attr))
    (hok : (set_hostacl plan attr (some newpas) op).1 = none) :
    List.Chain' aclRel (entriesOf (set_hostacl plan attr (some newpas) op).2) := by
  have main : ∀ pas : ArrSt, List.Chain' aclRel pas.entries →
      (setBody plan pas newpas op host_order).1 = none →
      List.Chain' aclRel (setBody plan pas newpas op host_order).2.entries := by
    intro pas hch hks
    rcases hop with rfl | rfl
    · rcases setBody_set_ok_entries plan pas newpas host_order hks with he | he <;> rw [he]
      · exact List.chain'_nil
      · exact foldl_insertAcl_chain newpas.entries [] List.chain'_nil
    · show List.Chain' aclRel (incrBody plan pas newpas host_order).2.entries
      rw [incrBody_ok_entries plan pas newpas host_order hks]
      exact foldl_insertAcl_chain newpas.entries pas.entries hch
  cases attr with
  | some pas => exact main pas hpre hok
  | none =>
    by_cases hp : plan.mkPas
    · have heq : set_hostacl plan none (some newpas) op =
          ((setBody plan ⟨[], 0, newpas.npointers⟩ newpas op host_order).1,
            some (setBody plan ⟨[], 0, newpas.npointers⟩ newpas op host_order).2) := by
        simp [set_hostacl, set_allacl, hp]
      rw [heq] at hok ⊢
      exact main ⟨[], 0, newpas.npointers⟩ List.chain'_nil hok
    · have heq : set_hostacl plan none (some newpas) op = (some SetErr.system, none) := by
        simp [set_hostacl, set_allacl, hp]
      rw [heq] at hok
      cases hok

/-- C2, witness: replacing an empty Host ACL with
`["b.c", "a.c"]` produces a list satisfying the invariant. -/
theorem set_hostacl_sort_invariant_witness :
    List.Chain' aclRel (entriesOf (set_hostacl allocOK none
      (some ⟨[['b', '.', 'c'], ['a', '.', 'c']], 0, 2⟩) BatchOp.SET).2) :=
  set_hostacl_sort_invariant allocOK none ⟨[['b', '.', 'c'], ['a', '.', 'c']], 0, 2⟩
    BatchOp.SET (Or.inl rfl) List.chain'_nil (by decide)

/-- C2, counterexample.  A successful Replace of an empty Host ACL by
the operand list `["*", "+*"]` stores `["+*", "*"]`, whose unique
adjacent pair has `host_order "+*" "*" = 1 > 0`: the claimed invariant
`order(e_i, e_{i+1}) ≤ 0` fails after a successful mutation (both
entries strip to the same `'*'` pattern, on which the comparator is not
antisymmetric). -/
theorem set_hostacl_sort_violation :
    (set_hostacl allocOK none (some ⟨[['*'], ['+', '*']], 0, 2⟩) BatchOp.SET).1 = none ∧
    entriesOf (set_hostacl allocOK none (some ⟨[['*'], ['+', '*']], 0, 2⟩)
      BatchOp.SET).2 = [['+', '*'], ['*']] ∧
    0 < host_order ['+', '*'] ['*'] := by
  decide

/-! ## C4 — full characterization of `hacl_match` -/

lemma map_rev_pref_iff (f : Char → Char) (l1 l2 : List Char) :
    l1.map f <+: (l2.reverse).map f ↔ (l1.reverse).map f <:+ l2.map f := by
  rw [List.map_reverse f l2, List.map_reverse f l1]
  constructor
  · intro h
    have h2 := List.reverse_suffix.mpr h
    rwa [List.reverse_reverse] at h2
  · intro h
    apply List.reverse_suffix.mp
    rwa [List.reverse_reverse]

/-- Characterization of the backward scan on the *reversed* strings:
it succeeds iff the (reversed) master ends in `'*'` and everything
before the `'*'` is a case-insensitive prefix of the (reversed)
candidate, with the candidate long enough for the scan to reach the
`'*'` (any length suffices when the master is just `"*"`), or the two
strings are case-insensitively equal (and nonempty). -/
lemma haclLoop_iff :
    ∀ (m c : List Char),
      haclLoop c m = true ↔
        ((∃ minit, m = minit ++ ['*'] ∧ (minit = [] ∨ m.length ≤ c.length) ∧
            minit.map Char.toLower <+: c.map Char.toLower) ∨
          (m ≠ [] ∧ c.map Char.toLower = m.map Char.toLower)) := by
  intro m
  induction m with
  | nil =>
    intro c
    rw [haclLoop_nil]
    refine ⟨fun h => absurd h (by simp), fun h => ?_⟩
    exfalso
    rcases h with ⟨minit, hm, _, _⟩ | ⟨hne, _⟩
    · exact absurd hm (by simp)
    · exact absurd rfl hne
  | cons m0 mt ih =>
    intro c
    cases mt with
    | nil =>
      by_cases hstar : m0 = '*'
      · subst hstar
        have hl : haclLoop c ['*'] = true := by
          cases c with
          | nil => rfl
          | cons c0 cs => cases cs <;> rfl
        rw [hl]
        exact ⟨fun _ => Or.inl ⟨[], rfl, Or.inl rfl, List.nil_prefix⟩, fun _ => rfl⟩
      · constructor
        · intro h
          cases c with
          | nil =>
            exfalso
            have e : haclLoop [] [m0] = false := by simp [haclLoop, hstar]
            rw [e] at h
            exact absurd h (by simp)
          | cons c0 cs =>
            cases cs with
            | nil =>
              simp only [haclLoop, hstar, if_false, decide_eq_true_eq] at h
              exact Or.inr ⟨by simp, by simp [h]⟩
            | cons c1 cs' =>
              exfalso
              have e : haclLoop (c0 :: c1 :: cs') [m0] = false := by
                simp [haclLoop, hstar]
              rw [e] at h
              exact absurd h (by simp)
        · rintro (⟨minit, hm, hlen, hpre⟩ | ⟨hne, hmap⟩)
          · cases minit with
            | nil =>
              simp only [List.nil_append, List.cons.injEq, and_true] at hm
              exact absurd hm hstar
            | cons x xs =>
              exfalso
              have hlg := congrArg List.length hm
              simp only [List.length_cons, List.length_append, List.length_nil] at hlg
              omega
          · cases c with
            | nil => simp at hmap
            | cons c0 cs =>
              cases cs with
              | nil =>
                simp only [List.map_cons, List.map_nil, List.cons.injEq, and_true] at hmap
                simp [haclLoop, hstar, hmap]
              | cons c1 cs' => simp at hmap
    | cons m1 ms =>
      cases c with
      | nil =>
        rw [haclLoop_short1]
        refine ⟨fun h => absurd h (by simp), fun h => ?_⟩
        exfalso
        rcases h with ⟨minit, hm, hlen, _⟩ | ⟨_, hmap⟩
        · cases minit with
          | nil => simp at hm
          | cons x xs =>
            rcases hlen with h00 | hlen
            · exact absurd h00 (by simp)
            · simp only [List.length_cons, List.length_nil] at hlen
              omega
        · simp at hmap
      | cons c0 cs =>
        cases cs with
        | nil =>
          rw [haclLoop_short2]
          refine ⟨fun h => absurd h (by simp), fun h => ?_⟩
          exfalso
          rcases h with ⟨minit, hm, hlen, _⟩ | ⟨_, hmap⟩
          · cases minit with
            | nil => simp at hm
            | cons x xs =>
              rcases hlen with h00 | hlen
              · exact absurd h00 (by simp)
              · simp only [List.length_cons, List.length_nil] at hlen
                omega
          · simp at hmap
        | cons c1 cs' =>
          by_cases h0 : c0.toLower = m0.toLower
          · have harm : haclLoop (c0 :: c1 :: cs') (m0 :: m1 :: ms) =
                haclLoop (c1 :: cs') (m1 :: ms) := by
              simp [haclLoop, h0]
            rw [harm, ih (c1 :: cs')]
            constructor
            · rintro (⟨minit, hm, hlen, hpre⟩ | ⟨hne, hmap⟩)
              · refine Or.inl ⟨m0 :: minit, by rw [List.cons_append, ← hm], ?_, ?_⟩
                · right
                  rcases hlen with rfl | hlen
                  · simp only [List.nil_append, List.cons.injEq] at hm
                    obtain ⟨_, hms⟩ := hm
                    subst hms
                    simp only [List.length_cons, List.length_nil]
                    omega
                  · simp only [List.length_cons] at hlen ⊢
                    omega
                · rw [List.map_cons, List.map_cons, List.cons_prefix_cons]
                  exact ⟨h0.symm, hpre⟩
              · refine Or.inr ⟨by simp, ?_⟩
                simp only [List.map_cons] at hmap ⊢
                rw [h0, hmap]
            · rintro (⟨minit, hm, hlen, hpre⟩ | ⟨hne, hmap⟩)
              · cases minit with
                | nil => simp at hm
                | cons x xs =>
                  rw [List.cons_append] at hm
                  injection hm with hx htail
                  refine Or.inl ⟨xs, htail, ?_, ?_⟩
                  · cases xs with
                    | nil => exact Or.inl rfl
                    | cons z zs =>
                      right
                      rcases hlen with h00 | hlen
                      · exact absurd h00 (by simp)
                      · simp only [List.length_cons] at hlen ⊢
                        omega
                  · subst hx
                    rw [List.map_cons, List.map_cons, List.cons_prefix_cons] at hpre
                    exact hpre.2
              · refine Or.inr ⟨by simp, ?_⟩
                simp only [List.map_cons, List.cons.injEq] at hmap ⊢
                exact ⟨hmap.2.1, hmap.2.2⟩
          · have harm : haclLoop (c0 :: c1 :: cs') (m0 :: m1 :: ms) = false := by
              simp [haclLoop, h0]
            rw [harm]
            refine ⟨fun h => absurd h (by simp), fun h => ?_⟩
            exfalso
            rcases h with ⟨minit, hm, _, hpre⟩ | ⟨_, hmap⟩
            · cases minit with
              | nil => simp at hm
              | cons x xs =>
                rw [List.cons_append] at hm
                injection hm with hx _
                subst hx
                rw [List.map_cons, List.map_cons, List.cons_prefix_cons] at hpre
                exact absurd hpre.1.symm h0
            · rw [List.map_cons, List.map_cons] at hmap
              injection hmap with hh _
              exact absurd hh h0

/-- C4, main theorem.  `hacl_match` matches iff either the pattern
starts with `'*'`, the rest of the pattern is a case-insensitive suffix
of the candidate, and the candidate is long enough for the backward
scan to reach the `'*'` (automatic for the bare pattern `"*"`), or the
two strings are case-insensitively equal (both nonempty); and a
single-character pattern that is not `"*"` matches exactly the
case-insensitively identical single-character candidate. -/
theorem hacl_match_characterization :
    (∀ can master : Str,
      hacl_match can master = true ↔
        ((∃ rest, master = '*' :: rest ∧ (rest = [] ∨ master.length ≤ can.length) ∧
            rest.map Char.toLower <:+ can.map Char.toLower) ∨
          (master ≠ [] ∧ can.map Char.toLower = master.map Char.toLower))) ∧
    (∀ (m0 : Char) (can : Str), m0 ≠ '*' →
      (hacl_match can [m0] = true ↔ ∃ c0, can = [c0] ∧ c0.toLower = m0.toLower)) := by
  have h1 : ∀ can master : Str,
      hacl_match can master = true ↔
        ((∃ rest, master = '*' :: rest ∧ (rest = [] ∨ master.length ≤ can.length) ∧
            rest.map Char.toLower <:+ can.map Char.toLower) ∨
          (master ≠ [] ∧ can.map Char.toLower = master.map Char.toLower)) := by
    intro can master
    rw [hacl_match, haclLoop_iff]
    constructor
    · rintro (⟨minit, hm, hlen, hpre⟩ | ⟨hne, hmap⟩)
      · refine Or.inl ⟨minit.reverse, ?_, ?_, ?_⟩
        · have h2 := congrArg List.reverse hm
          simpa using h2
        · rcases hlen with rfl | hlen
          · exact Or.inl rfl
          · right
            simpa using hlen
        · exact (map_rev_pref_iff Char.toLower minit can).mp hpre
      · refine Or.inr ⟨by simpa using hne, ?_⟩
        rw [List.map_reverse, List.map_reverse] at hmap
        exact List.reverse_inj.mp hmap
    · rintro (⟨rest, hm, hlen, hsuf⟩ | ⟨hne, hmap⟩)
      · refine Or.inl ⟨rest.reverse, ?_, ?_, ?_⟩
        · rw [hm]
          simp
        · rcases hlen with rfl | hlen
          · exact Or.inl rfl
          · right
            simpa using hlen
        · apply (map_rev_pref_iff Char.toLower rest.reverse can).mpr
          rw [List.reverse_reverse]
          exact hsuf
      · refine Or.inr ⟨by simpa using hne, ?_⟩
        rw [List.map_reverse, List.map_reverse, List.reverse_inj]
        exact hmap
  refine ⟨h1, ?_⟩
  intro m0 can hm0
  rw [h1 can [m0]]
  constructor
  · rintro (⟨rest, hr, _, _⟩ | ⟨_, hmap⟩)
    · injection hr with hx _
      exact absurd hx hm0
    · cases can with
      | nil => simp at hmap
      | cons c0 cs =>
        cases cs with
        | nil =>
          simp only [List.map_cons, List.map_nil, List.cons.injEq, and_true] at hmap
          exact ⟨c0, rfl, hmap⟩
        | cons c1 cs' => simp at hmap
  · rintro ⟨c0, rfl, hlc⟩
    exact Or.inr ⟨by simp, by simp [hlc]⟩

/-- C4, witness: the single-character clause at the pattern `"b"` and
candidate `"B"`. -/
theorem hacl_match_characterization_witness :
    ('b' : Char) ≠ '*' ∧
    (hacl_match ['B'] ['b'] = true ↔
      ∃ c0, (['B'] : Str) = [c0] ∧ c0.toLower = Char.toLower 'b') :=
  ⟨by decide, hacl_match_characterization.2 'b' ['B'] (by decide)⟩

/-! ## C6 — characterization of `sacl_match` -/

lemma ptonOctetCont_length :
    ∀ (r : List Char) (acc v : Nat) (rest : List Char),
      ptonOctetCont r acc = some (v, rest) →
      (26 ≤ acc → r.length ≤ rest.length) ∧
      (3 ≤ acc → r.length ≤ rest.length + 1) ∧
      r.length ≤ rest.length + 2 := by
  intro r
  induction r with
  | nil =>
    intro acc v rest h
    simp only [ptonOctetCont, Option.some.injEq, Prod.mk.injEq] at h
    obtain ⟨rfl, rfl⟩ := h
    exact ⟨fun _ => Nat.le_refl _, fun _ => by omega, by omega⟩
  | cons c cr ih =>
    intro acc v rest h
    simp only [ptonOctetCont] at h
    split at h
    · rename_i d hd
      split_ifs at h with h1 h2
      have ihh := ih (acc * 10 + d) v rest h
      refine ⟨fun h26 => ?_, fun h3 => ?_, ?_⟩
      · exfalso
        omega
      · have h26 : 26 ≤ acc * 10 + d := by omega
        have := ihh.1 h26
        simp only [List.length_cons]
        omega
      · have hge : 3 ≤ acc * 10 + d := by omega
        have := ihh.2.1 hge
        simp only [List.length_cons]
        omega
    · simp only [Option.some.injEq, Prod.mk.injEq] at h
      obtain ⟨rfl, rfl⟩ := h
      exact ⟨fun _ => Nat.le_refl _, fun _ => by omega, by omega⟩

lemma ptonOctet_length (l : List Char) (v : Nat) (rest : List Char)
    (h : ptonOctet l = some (v, rest)) : l.length ≤ rest.length + 3 := by
  cases l with
  | nil => simp [ptonOctet] at h
  | cons c cr =>
    simp only [ptonOctet] at h
    split at h
    · rename_i d hd
      have := (ptonOctetCont_length cr d v rest h).2.2
      simp only [List.length_cons]
      omega
    · simp at h

lemma expectDot_length (r s : List Char) (h : expectDot r = some s) :
    r.length = s.length + 1 := by
  cases r with
  | nil => simp [expectDot] at h
  | cons c cr =>
    simp only [expectDot] at h
    split_ifs at h with hc
    simp only [Option.some.injEq] at h
    subst h
    simp

/-- A string accepted by the dotted-quad parse has at most 15
characters — so the `PBS_MAXIP_LEN` guard (45) never rejects a pattern
that would otherwise match. -/
lemma parseIPv4_length (l : List Char) (v : Nat) (h : parseIPv4 l = some v) :
    l.length ≤ 15 := by
  simp only [parseIPv4, Option.bind_eq_some] at h
  obtain ⟨⟨a, r1⟩, h1, s1, h2, ⟨b, r2⟩, h3, s2, h4, ⟨c, r3⟩, h5, s3, h6, ⟨d, r4⟩, h7, h8⟩ := h
  split_ifs at h8 with h9
  have e1 := ptonOctet_length l a r1 h1
  have e2 := expectDot_length r1 s1 h2
  have e3 := ptonOctet_length s1 b r2 h3
  have e4 := expectDot_length r2 s2 h4
  have e5 := ptonOctet_length s2 c r3 h5
  have e6 := expectDot_length r3 s3 h6
  have e7 := ptonOctet_length s3 d r4 h7
  have e8 : r4.length = 0 := by simpa using congrArg List.length h9
  omega

/-- C6 (amended), main theorem.  `sacl_match` matches iff the candidate
parses as a dotted IPv4 address, the pattern splits at the first `'/'`
into a parseable dotted subnet and a nonempty mask part, the mask part
evaluates (dotted via `inet_pton` when it contains `'.'`, otherwise via
`atoi` — which tolerates leading whitespace, an explicit sign and
trailing junk — with values outside 0..32 rejected) to a nonzero
32-bit mask, and `(ip & mask) = (subnet & mask)`.  Malformed input
yields non-match, never an error. -/
theorem sacl_match_iff (can master : Str) :
    sacl_match can master = true ↔
      ∃ ip sp mp subnet mask, parseIPv4 can = some ip ∧
        splitFirst '/' master = some (sp, mp) ∧ parseIPv4 sp = some subnet ∧
        maskVal mp = some mask ∧ mask ≠ 0 ∧ ip.land mask = subnet.land mask := by
  unfold sacl_match
  cases hcan : parseIPv4 can with
  | none => simp
  | some ip =>
    cases hsp : splitFirst '/' master with
    | none => simp
    | some pr =>
      obtain ⟨sp, mp⟩ := pr
      dsimp only
      by_cases hmp : mp = []
      · subst hmp
        rw [if_pos rfl]
        constructor
        · intro h
          exact absurd h (by simp)
        · rintro ⟨ip', sp', mp', subnet', mask', _, hsplit, _, hmaskv, _, _⟩
          simp only [Option.some.injEq, Prod.mk.injEq] at hsplit
          obtain ⟨rfl, rfl⟩ := hsplit
          simp [maskVal] at hmaskv
      · rw [if_neg hmp]
        by_cases hlen : sp.length > PBS_MAXIP_LEN
        · rw [if_pos hlen]
          constructor
          · intro h
            exact absurd h (by simp)
          · rintro ⟨ip', sp', mp', subnet', mask', _, hsplit, hsub, _, _, _⟩
            simp only [Option.some.injEq, Prod.mk.injEq] at hsplit
            obtain ⟨rfl, rfl⟩ := hsplit
            have h15 := parseIPv4_length _ _ hsub
            simp only [PBS_MAXIP_LEN] at hlen
            omega
        · rw [if_neg hlen]
          cases hsub : parseIPv4 sp with
          | none =>
            constructor
            · intro h
              exact absurd h (by simp)
            · rintro ⟨ip', sp', mp', subnet', mask', _, hsplit, hsub2, _, _, _⟩
              simp only [Option.some.injEq, Prod.mk.injEq] at hsplit
              obtain ⟨rfl, rfl⟩ := hsplit
              rw [hsub] at hsub2
              exact absurd hsub2 (by simp)
          | some subnet =>
            dsimp only
            cases hval : maskVal mp with
            | none =>
              constructor
              · intro h
                exact absurd h (by simp)
              · rintro ⟨ip', sp', mp', subnet', mask', _, hsplit, _, hmaskv, _, _⟩
                simp only [Option.some.injEq, Prod.mk.injEq] at hsplit
                obtain ⟨rfl, rfl⟩ := hsplit
                rw [hval] at hmaskv
                exact absurd hmaskv (by simp)
            | some m =>
              dsimp only
              by_cases hm0 : m = 0
              · subst hm0
                rw [if_pos rfl]
                constructor
                · intro h
                  exact absurd h (by simp)
                · rintro ⟨ip', sp', mp', subnet', mask', _, hsplit, _, hmaskv, hne0, _⟩
                  simp only [Option.some.injEq, Prod.mk.injEq] at hsplit
                  obtain ⟨rfl, rfl⟩ := hsplit
                  rw [hval] at hmaskv
                  simp only [Option.some.injEq] at hmaskv
                  exact absurd hmaskv.symm hne0
              · rw [if_neg hm0]
                constructor
                · intro h
                  exact ⟨ip, sp, mp, subnet, m, rfl, rfl, hsub, hval, hm0,
                    of_decide_eq_true h⟩
                · rintro ⟨ip', sp', mp', subnet', mask', hip, hsplit, hsub2, hmaskv, _, heq⟩
                  simp only [Option.some.injEq] at hip
                  simp only [Option.some.injEq, Prod.mk.injEq] at hsplit
                  obtain ⟨rfl, rfl⟩ := hsplit
                  rw [hsub] at hsub2
                  simp only [Option.some.injEq] at hsub2
                  rw [hval] at hmaskv
                  simp only [Option.some.injEq] at hmaskv
                  subst hip
                  subst hsub2
                  subst hmaskv
                  exact decide_eq_true heq

/-- C6, counterexample.  The pattern `"10.0.0.0/24x"` has a mask part
`"24x"` that is neither a prefix length 0-32 (it is not a digit
string — `atoi` just ignores the trailing `'x'`) nor a dotted mask (it
contains no `'.'` and does not parse as one), yet `sacl_match` reports
a match for the candidate `"10.0.0.1"`, contradicting the claimed
"mask given as a prefix length 0-32 or a dotted mask" requirement. -/
theorem sacl_match_junk_mask :
    sacl_match "10.0.0.1".toList "10.0.0.0/24x".toList = true ∧
    splitFirst '/' "10.0.0.0/24x".toList = some ("10.0.0.0".toList, "24x".toList) ∧
    ("24x".toList.all Char.isDigit) = false ∧
    ("24x".toList.contains '.') = false ∧
    parseIPv4 "24x".toList = none := by
  refine ⟨by decide, by decide, by decide, by decide, by decide⟩
